import Mathlib

/-!
# Verification of the oxc ESTree sequence serializer

Shallow embedding of `crates/oxc_estree/src/serialize/sequences.rs`.

The buffer is modelled as `List Char` (the Rust `Buffer` is an append-only
byte/text sink).  The formatter is modelled abstractly: a record of the
lifecycle hooks described by the `Formatter` trait, each hook taking the
formatter's mutable state (nesting depth, a `Nat`) and returning the new
state together with the text it appends to the buffer.  The concrete
`Compact` and `Pretty` formatters and the struct serializer are not part of
the sampled source; they are modelled from the spec further below.
-/

/-- Formatter strategy: the six lifecycle hooks of the `Formatter` trait.
Each hook receives the formatter state (nesting depth) and returns the new
state and the text it appends to the buffer.  `after_colon` is the text a
strategy places after a struct field's colon (modelled from the spec:
compact `"name":value`, pretty `"name": value`). -/
structure FormatterImpl where
  before_first_element : Nat → Nat × List Char
  before_later_element : Nat → Nat × List Char
  after_last_element : Nat → Nat × List Char
  before_first_field : Nat → Nat × List Char
  before_later_field : Nat → Nat × List Char
  after_last_field : Nat → Nat × List Char
  after_colon : List Char

/-- The serializer context: one buffer and one formatter (hooks plus its
mutable depth state), as in `ESTreeSerializer<F>`. -/
structure ESTreeSerializer where
  fmt : FormatterImpl
  depth : Nat
  buffer : List Char

/-- State of `ESTreeSequenceSerializer` (enum `SequenceState`). -/
inductive SequenceState where
  | Empty
  | HasEntries
deriving DecidableEq, Repr

/-- `ESTreeSequenceSerializer<'s, F>`: the transient sequence builder,
holding the (exclusively borrowed) serializer and the sequence state. -/
structure ESTreeSequenceSerializer where
  serializer : ESTreeSerializer
  state : SequenceState

/-- An element's `ESTree::serialize` implementation is modelled as a state
transformer on the shared serializer. -/
def ElemFun : Type := ESTreeSerializer → ESTreeSerializer

namespace ESTreeSequenceSerializer

/-- `ESTreeSequenceSerializer::new`: pushes `[` and starts `Empty`. -/
def new (s : ESTreeSerializer) : ESTreeSequenceSerializer :=
  { serializer := { s with buffer := s.buffer ++ ['['] }, state := SequenceState.Empty }

/-- `SequenceSerializer::serialize_element` for `ESTreeSequenceSerializer`:
if the state is `Empty`, set it to `HasEntries` and run
`before_first_element`; otherwise push `,` and run `before_later_element`;
then delegate to the value's own `serialize` on the same serializer. -/
def serialize_element (seq : ESTreeSequenceSerializer) (f : ElemFun) :
    ESTreeSequenceSerializer :=
  if seq.state = SequenceState.Empty then
    let p := seq.serializer.fmt.before_first_element seq.serializer.depth
    let s1 : ESTreeSerializer :=
      { seq.serializer with depth := p.1, buffer := seq.serializer.buffer ++ p.2 }
    { serializer := f s1, state := SequenceState.HasEntries }
  else
    let p := seq.serializer.fmt.before_later_element seq.serializer.depth
    let s1 : ESTreeSerializer :=
      { seq.serializer with
        depth := p.1
        buffer := seq.serializer.buffer ++ [','] ++ p.2 }
    { serializer := f s1, state := seq.state }

/-- `SequenceSerializer::end` for `ESTreeSequenceSerializer` (the Rust
method is named `end`, a reserved word in Lean): if the state is
`HasEntries`, run `after_last_element`; then push `]`.  Like the Rust
`fn end(self)`, it consumes the builder: it takes the builder by value and
returns only the underlying serializer, so no further builder operation
can be expressed on the result. -/
def endSeq (seq : ESTreeSequenceSerializer) : ESTreeSerializer :=
  let s :=
    if seq.state = SequenceState.HasEntries then
      let p := seq.serializer.fmt.after_last_element seq.serializer.depth
      { seq.serializer with depth := p.1, buffer := seq.serializer.buffer ++ p.2 }
    else
      seq.serializer
  { s with buffer := s.buffer ++ [']'] }

end ESTreeSequenceSerializer

/-- `impl ESTree for &[T]`: begin a sequence, serialize each element of the
slice in order, end the sequence. -/
def sliceSerialize (elems : List ElemFun) (s : ESTreeSerializer) : ESTreeSerializer :=
  (elems.foldl ESTreeSequenceSerializer.serialize_element
    (ESTreeSequenceSerializer.new s)).endSeq

/-- Loop of `impl ESTree for [T; N]`: with `rem` elements remaining
(`rem ≤ n`), serialize elements `n - rem, ..., n - 1` of the array, in
ascending index order, into the sequence builder. -/
def arrayFoldAux (n : Nat) (elems : Fin n → ElemFun) :
    (rem : Nat) → rem ≤ n → ESTreeSequenceSerializer → ESTreeSequenceSerializer
  | 0, _, q => q
  | rem + 1, h, q =>
    arrayFoldAux n elems rem (Nat.le_of_succ_le h)
      (q.serialize_element (elems ⟨n - (rem + 1), by omega⟩))

/-- `impl ESTree for [T; N]`: begin a sequence, serialize each of the `n`
array elements in index order, end the sequence. -/
def arraySerialize (n : Nat) (elems : Fin n → ElemFun) (s : ESTreeSerializer) :
    ESTreeSerializer :=
  (arrayFoldAux n elems n (Nat.le_refl n) (ESTreeSequenceSerializer.new s)).endSeq

/-!
## Spec-modelled components

The `Formatter` implementations (`CompactFormatter`, `PrettyFormatter`),
the struct serializer, the top-level `CompactSerializer` /
`PrettySerializer` constructors and the primitive string implementation
are declared or used by the sampled file but their source is not part of
the sample; they are modelled from the spec below.
-/

/-- Modelled from the spec: the `Compact` formatter strategy (source not in
the sample).  Every hook is a no-op appending nothing and leaving the depth
unchanged; nothing follows a struct field's colon. -/
def CompactFormatter : FormatterImpl where
  before_first_element := fun d => (d, [])
  before_later_element := fun d => (d, [])
  after_last_element := fun d => (d, [])
  before_first_field := fun d => (d, [])
  before_later_field := fun d => (d, [])
  after_last_field := fun d => (d, [])
  after_colon := []

/-- Two-space indentation for depth `d` (the spec's fixed indent unit). -/
def indentChars (d : Nat) : List Char := List.replicate (2 * d) ' '

/-- Modelled from the spec: the `Pretty` formatter strategy (source not in
the sample).  `before_first_element` increments the depth then emits a line
break and indentation at the new depth; `before_later_element` emits a line
break and indentation at the current depth; `after_last_element` decrements
the depth and emits a line break and indentation at the new, shallower
depth.  The field hooks mirror the element hooks; a single space follows a
struct field's colon. -/
def PrettyFormatter : FormatterImpl where
  before_first_element := fun d => (d + 1, '\n' :: indentChars (d + 1))
  before_later_element := fun d => (d, '\n' :: indentChars d)
  after_last_element := fun d => (d - 1, '\n' :: indentChars (d - 1))
  before_first_field := fun d => (d + 1, '\n' :: indentChars (d + 1))
  before_later_field := fun d => (d, '\n' :: indentChars d)
  after_last_field := fun d => (d - 1, '\n' :: indentChars (d - 1))
  after_colon := [' ']

/-- Modelled from the spec: `CompactSerializer::new` — fresh serializer
with an empty buffer, the compact strategy, and zero nesting depth. -/
def CompactSerializer.new : ESTreeSerializer :=
  { fmt := CompactFormatter, depth := 0, buffer := [] }

/-- Modelled from the spec: `PrettySerializer::new` — fresh serializer
with an empty buffer, the pretty strategy, and zero nesting depth. -/
def PrettySerializer.new : ESTreeSerializer :=
  { fmt := PrettyFormatter, depth := 0, buffer := [] }

/-- Modelled from the spec: the struct builder
(`ESTreeStructSerializer`, source not in the sample): same two-state
machine as the sequence builder, writing braces and keyed fields. -/
structure ESTreeStructSerializer where
  serializer : ESTreeSerializer
  state : SequenceState

namespace ESTreeStructSerializer

/-- Modelled from the spec: struct builder construction — pushes `{` and
starts `Empty`. -/
def new (s : ESTreeSerializer) : ESTreeStructSerializer :=
  { serializer := { s with buffer := s.buffer ++ ['\x7b'] }, state := SequenceState.Empty }

/-- Modelled from the spec: `serialize_field` — same state machine as the
sequence builder's element write, then the quoted field name, a colon, the
strategy's after-colon text, then the value's own `serialize`. -/
def serialize_field (st : ESTreeStructSerializer) (name : List Char) (f : ElemFun) :
    ESTreeStructSerializer :=
  if st.state = SequenceState.Empty then
    let p := st.serializer.fmt.before_first_field st.serializer.depth
    let s1 : ESTreeSerializer :=
      { st.serializer with
        depth := p.1
        buffer := st.serializer.buffer ++ p.2 ++ ['"'] ++ name ++ ['"', ':']
          ++ st.serializer.fmt.after_colon }
    { serializer := f s1, state := SequenceState.HasEntries }
  else
    let p := st.serializer.fmt.before_later_field st.serializer.depth
    let s1 : ESTreeSerializer :=
      { st.serializer with
        depth := p.1
        buffer := st.serializer.buffer ++ [','] ++ p.2 ++ ['"'] ++ name ++ ['"', ':']
          ++ st.serializer.fmt.after_colon }
    { serializer := f s1, state := st.state }

/-- Modelled from the spec: finishing the struct builder — if the state is
`HasEntries`, run `after_last_field`; then push `}`. -/
def endStruct (st : ESTreeStructSerializer) : ESTreeSerializer :=
  let s :=
    if st.state = SequenceState.HasEntries then
      let p := st.serializer.fmt.after_last_field st.serializer.depth
      { st.serializer with depth := p.1, buffer := st.serializer.buffer ++ p.2 }
    else
      st.serializer
  { s with buffer := s.buffer ++ ['\x7d'] }

end ESTreeStructSerializer

/-- Modelled from the spec: the primitive string implementation — a string
renders itself as a double-quoted literal (content encoding of primitives
is an external concern; the sampled strings need no escaping). -/
def serializeStr (cs : List Char) : ElemFun :=
  fun s => { s with buffer := s.buffer ++ ['"'] ++ cs ++ ['"'] }

/-- The worked-example struct `Foo` of the sampled test
`tests::serialize_sequence`: fields `none` (empty slice), `one` (slice of
one string), `two` (array of two strings), written in that order. -/
def fooSerialize : ElemFun := fun s =>
  (((((ESTreeStructSerializer.new s).serialize_field ("none".data)
        (sliceSerialize [])).serialize_field ("one".data)
        (sliceSerialize [serializeStr ("one".data)])).serialize_field ("two".data)
        (arraySerialize 2 fun i =>
          serializeStr (if i.1 = 0 then "two one".data else "two two".data))).endStruct)

/-!
## Basic state-machine lemmas (claims C2–C5)
-/

/-- Every element write leaves the builder in `HasEntries`: the `Empty`
branch sets it, the other branch keeps the (already `HasEntries`) state. -/
theorem selem_state (q : ESTreeSequenceSerializer) (f : ElemFun) :
    (q.serialize_element f).state = SequenceState.HasEntries := by
  obtain ⟨s, st⟩ := q
  cases st <;> simp [ESTreeSequenceSerializer.serialize_element]

/-- C2: a sequence builder on which zero elements are written and which is
then finished appends exactly `[]` to the buffer and leaves the formatter
state untouched; since this holds for *every* formatter — in particular for
the compact and pretty strategies — none of the interior hooks
(`before_first_element`, `before_later_element`, `after_last_element`) is
invoked. -/
theorem empty_sequence_appends_brackets :
    (∀ (fmt : FormatterImpl) (d : Nat) (b : List Char),
        (ESTreeSequenceSerializer.new ⟨fmt, d, b⟩).endSeq = ⟨fmt, d, b ++ ['[', ']']⟩)
      ∧ (ESTreeSequenceSerializer.new CompactSerializer.new).endSeq
          = ⟨CompactFormatter, 0, ['[', ']']⟩
      ∧ (ESTreeSequenceSerializer.new PrettySerializer.new).endSeq
          = ⟨PrettyFormatter, 0, ['[', ']']⟩ := by
  refine ⟨fun fmt d b => ?_, ?_, ?_⟩ <;>
    simp [ESTreeSequenceSerializer.new, ESTreeSequenceSerializer.endSeq,
      CompactSerializer.new, PrettySerializer.new]

/-- C3: an element write on a builder in state `Empty` runs
`before_first_element` (no comma) and moves to `HasEntries`; on any other
builder it appends a comma, then the `before_later_element` output; in both
cases it then delegates to the value's own serialize `f`, applied to the
one shared serializer (same buffer, same formatter). -/
theorem serialize_element_first_later_paths (fmt : FormatterImpl) (d : Nat)
    (b : List Char) (st : SequenceState) (f : ElemFun) :
    ESTreeSequenceSerializer.serialize_element ⟨⟨fmt, d, b⟩, st⟩ f
      = if st = SequenceState.Empty then
          ⟨f ⟨fmt, (fmt.before_first_element d).1,
            b ++ (fmt.before_first_element d).2⟩, SequenceState.HasEntries⟩
        else
          ⟨f ⟨fmt, (fmt.before_later_element d).1,
            b ++ [','] ++ (fmt.before_later_element d).2⟩, st⟩ := by
  cases st <;> simp [ESTreeSequenceSerializer.serialize_element]

/-- C4: finishing a sequence builder runs `after_last_element` exactly when
the state is `HasEntries`, and appends the closing `]` in every case.  The
embedding mirrors the consuming `fn end(self)`: `endSeq` takes the builder
by value and returns only the underlying serializer, so no write or second
finish can be expressed on the finished builder. -/
theorem endSeq_hook_iff_hasEntries (fmt : FormatterImpl) (d : Nat)
    (b : List Char) (st : SequenceState) :
    ESTreeSequenceSerializer.endSeq ⟨⟨fmt, d, b⟩, st⟩
      = if st = SequenceState.HasEntries then
          ⟨fmt, (fmt.after_last_element d).1,
            b ++ (fmt.after_last_element d).2 ++ [']']⟩
        else ⟨fmt, d, b ++ [']']⟩ := by
  cases st <;> simp [ESTreeSequenceSerializer.endSeq]

/-- C5: the progress marker starts `Empty` at construction, is `HasEntries`
after every element write (so the first write sets it and no operation ever
reverts it), and once it is `HasEntries` every subsequent write takes the
later-element path: comma, then `before_later_element`, never
`before_first_element`. -/
theorem sequence_state_machine :
    (∀ s : ESTreeSerializer,
        (ESTreeSequenceSerializer.new s).state = SequenceState.Empty)
      ∧ (∀ (q : ESTreeSequenceSerializer) (f : ElemFun),
          (q.serialize_element f).state = SequenceState.HasEntries)
      ∧ (∀ (fmt : FormatterImpl) (d : Nat) (b : List Char) (f : ElemFun),
          ESTreeSequenceSerializer.serialize_element
              ⟨⟨fmt, d, b⟩, SequenceState.HasEntries⟩ f
            = ⟨f ⟨fmt, (fmt.before_later_element d).1,
                b ++ [','] ++ (fmt.before_later_element d).2⟩,
              SequenceState.HasEntries⟩) := by
  refine ⟨fun s => rfl, fun q f => ?_, fun fmt d b f => ?_⟩
  · obtain ⟨s, st⟩ := q
    cases st <;> simp [ESTreeSequenceSerializer.serialize_element]
  · simp [ESTreeSequenceSerializer.serialize_element]

/-!
## Comma decomposition of a full builder run (claims C1, C7, C9)
-/

/-- `commaAll cs` precedes every chunk with one comma and concatenates. -/
def commaAll (cs : List (List Char)) : List Char :=
  (cs.map (fun c => ',' :: c)).flatten

/-- `joinSep cs` concatenates the chunks with exactly `cs.length - 1`
separating commas between them. -/
def joinSep : List (List Char) → List Char
  | [] => []
  | c :: cs => c ++ commaAll cs

/-- Append `t` to the last chunk of a chunk list. -/
def appendToLast : List (List Char) → List Char → List (List Char)
  | [], t => [t]
  | [c], t => [c ++ t]
  | c :: c' :: cs, t => c :: appendToLast (c' :: cs) t

theorem commaAll_nil : commaAll [] = [] := rfl

theorem commaAll_cons (c : List Char) (cs : List (List Char)) :
    commaAll (c :: cs) = ',' :: (c ++ commaAll cs) := by
  simp [commaAll]

theorem appendToLast_length (cs : List (List Char)) (t : List Char)
    (h : cs ≠ []) : (appendToLast cs t).length = cs.length := by
  induction cs with
  | nil => cases h rfl
  | cons c cs ih =>
    cases cs with
    | nil => simp [appendToLast]
    | cons c' cs' => simp [appendToLast, ih]

theorem commaAll_appendToLast (cs : List (List Char)) (t : List Char)
    (h : cs ≠ []) : commaAll (appendToLast cs t) = commaAll cs ++ t := by
  induction cs with
  | nil => cases h rfl
  | cons c cs ih =>
    cases cs with
    | nil => simp [appendToLast, commaAll]
    | cons c' cs' =>
      simp only [appendToLast, commaAll_cons, ih (List.cons_ne_nil c' cs')]
      simp [List.append_assoc]

theorem joinSep_appendToLast (cs : List (List Char)) (t : List Char)
    (h : cs ≠ []) : joinSep (appendToLast cs t) = joinSep cs ++ t := by
  cases cs with
  | nil => cases h rfl
  | cons c cs =>
    cases cs with
    | nil => simp [appendToLast, joinSep, commaAll]
    | cons c' cs' =>
      simp only [appendToLast, joinSep,
        commaAll_appendToLast (c' :: cs') t (List.cons_ne_nil c' cs'),
        List.append_assoc]

/-- An element implementation is a *writer*: it never touches the formatter
hooks record and only ever appends to the buffer.  Every `ESTree`
implementation has this shape, because the Rust `Buffer` API is
append-only. -/
def AppendOnly (f : ElemFun) : Prop :=
  ∀ s : ESTreeSerializer, (f s).fmt = s.fmt ∧ ∃ t, (f s).buffer = s.buffer ++ t

/-- Folding element writes over a builder already in `HasEntries` keeps it
in `HasEntries`, keeps the formatter hooks, and appends one comma-led chunk
per element. -/
theorem foldl_hasEntries (elems : List ElemFun) :
    (∀ f ∈ elems, AppendOnly f) →
    ∀ q : ESTreeSequenceSerializer, q.state = SequenceState.HasEntries →
    ∃ chunks : List (List Char), chunks.length = elems.length ∧
      ((elems.foldl ESTreeSequenceSerializer.serialize_element q).state
          = SequenceState.HasEntries
        ∧ (elems.foldl ESTreeSequenceSerializer.serialize_element q).serializer.fmt
          = q.serializer.fmt
        ∧ (elems.foldl ESTreeSequenceSerializer.serialize_element q).serializer.buffer
          = q.serializer.buffer ++ commaAll chunks) := by
  induction elems with
  | nil =>
    intro _ q hq
    exact ⟨[], rfl, hq, rfl, by simp [commaAll]⟩
  | cons f fs ih =>
    intro hall q hq
    obtain ⟨⟨fmt, d, b⟩, st⟩ := q
    have hst : st = SequenceState.HasEntries := hq
    subst hst
    have hstep : ESTreeSequenceSerializer.serialize_element
        ⟨⟨fmt, d, b⟩, SequenceState.HasEntries⟩ f
        = ⟨f ⟨fmt, (fmt.before_later_element d).1,
            b ++ [','] ++ (fmt.before_later_element d).2⟩,
          SequenceState.HasEntries⟩ := by
      simp [ESTreeSequenceSerializer.serialize_element]
    obtain ⟨hfmt, t, ht⟩ := hall f (List.mem_cons_self f fs)
      ⟨fmt, (fmt.before_later_element d).1,
        b ++ [','] ++ (fmt.before_later_element d).2⟩
    obtain ⟨chunks, hlen, hs, hfm, hbuf⟩ :=
      ih (fun g hg => hall g (List.mem_cons_of_mem f hg))
        ⟨f ⟨fmt, (fmt.before_later_element d).1,
            b ++ [','] ++ (fmt.before_later_element d).2⟩,
          SequenceState.HasEntries⟩ rfl
    refine ⟨((fmt.before_later_element d).2 ++ t) :: chunks, by simp [hlen], ?_, ?_, ?_⟩
    · rw [List.foldl_cons, hstep]
      exact hs
    · rw [List.foldl_cons, hstep]
      rw [hfm] at *
      exact hfmt
    · rw [List.foldl_cons, hstep, hbuf, ht, commaAll_cons]
      simp [List.append_assoc]

/-- Finishing a builder known to be in `HasEntries` appends the
`after_last_element` output and the closing bracket. -/
theorem endSeq_buffer_hasEntries (q : ESTreeSequenceSerializer)
    (hq : q.state = SequenceState.HasEntries) :
    q.endSeq.buffer = q.serializer.buffer
      ++ (q.serializer.fmt.after_last_element q.serializer.depth).2 ++ [']'] := by
  obtain ⟨⟨fmt, d, b⟩, st⟩ := q
  have hst : st = SequenceState.HasEntries := hq
  subst hst
  simp [ESTreeSequenceSerializer.endSeq]

/-- C1: a builder run of `N ≥ 0` element writes followed by one finish
appends `[`, then the `N` per-element chunks separated by exactly `N - 1`
commas written by this builder (nested commas live inside the chunks), then
`]`. -/
theorem seq_run_brackets_and_commas (fmt : FormatterImpl) (d : Nat)
    (b : List Char) (elems : List ElemFun) (h : ∀ f ∈ elems, AppendOnly f) :
    ∃ chunks : List (List Char), chunks.length = elems.length ∧
      ((elems.foldl ESTreeSequenceSerializer.serialize_element
          (ESTreeSequenceSerializer.new ⟨fmt, d, b⟩)).endSeq).buffer
        = b ++ '[' :: (joinSep chunks ++ [']']) := by
  cases elems with
  | nil =>
    refine ⟨[], rfl, ?_⟩
    simp [ESTreeSequenceSerializer.new, ESTreeSequenceSerializer.endSeq, joinSep, commaAll]
  | cons f fs =>
    have hstep : (ESTreeSequenceSerializer.new ⟨fmt, d, b⟩).serialize_element f
        = ⟨f ⟨fmt, (fmt.before_first_element d).1,
            (b ++ ['[']) ++ (fmt.before_first_element d).2⟩,
          SequenceState.HasEntries⟩ := by
      simp [ESTreeSequenceSerializer.new, ESTreeSequenceSerializer.serialize_element]
    obtain ⟨hfmt, t, ht⟩ := h f (List.mem_cons_self f fs)
      ⟨fmt, (fmt.before_first_element d).1,
        (b ++ ['[']) ++ (fmt.before_first_element d).2⟩
    obtain ⟨chunks, hlen, hs, hfm, hbuf⟩ :=
      foldl_hasEntries fs (fun g hg => h g (List.mem_cons_of_mem f hg))
        ⟨f ⟨fmt, (fmt.before_first_element d).1,
            (b ++ ['[']) ++ (fmt.before_first_element d).2⟩,
          SequenceState.HasEntries⟩ rfl
    rw [List.foldl_cons, hstep]
    set q := fs.foldl ESTreeSequenceSerializer.serialize_element
      ⟨f ⟨fmt, (fmt.before_first_element d).1,
          (b ++ ['[']) ++ (fmt.before_first_element d).2⟩,
        SequenceState.HasEntries⟩ with hqdef
    refine ⟨appendToLast (((fmt.before_first_element d).2 ++ t) :: chunks)
      ((q.serializer.fmt.after_last_element q.serializer.depth).2), ?_, ?_⟩
    · rw [appendToLast_length _ _ (List.cons_ne_nil _ _)]
      simp [hlen]
    · rw [endSeq_buffer_hasEntries q hs, hbuf, ht,
        joinSep_appendToLast _ _ (List.cons_ne_nil _ _)]
      show _ = b ++ '[' :: ((((fmt.before_first_element d).2 ++ t) ++ commaAll chunks
        ++ (q.serializer.fmt.after_last_element q.serializer.depth).2) ++ [']'])
      simp [List.append_assoc]

/-- The modelled string primitive is a writer. -/
theorem serializeStr_appendOnly (cs : List Char) : AppendOnly (serializeStr cs) := by
  intro s
  refine ⟨rfl, ['"'] ++ cs ++ ['"'], ?_⟩
  simp [serializeStr]

/-- C1 witness: two concrete string elements under the compact strategy. -/
theorem seq_run_brackets_and_commas_witness :
    ∃ chunks : List (List Char), chunks.length = 2 ∧
      (([serializeStr ['a'], serializeStr ['b']].foldl
          ESTreeSequenceSerializer.serialize_element
          (ESTreeSequenceSerializer.new ⟨CompactFormatter, 0, []⟩)).endSeq).buffer
        = [] ++ '[' :: (joinSep chunks ++ [']']) :=
  seq_run_brackets_and_commas CompactFormatter 0 []
    [serializeStr ['a'], serializeStr ['b']]
    (by
      intro f hf
      simp only [List.mem_cons, List.not_mem_nil, or_false] at hf
      rcases hf with h1 | h1 <;> subst h1
      · exact serializeStr_appendOnly ['a']
      · exact serializeStr_appendOnly ['b'])

/-- C9: every builder operation only appends to the buffer: after
construction, after an element write (whose value implementation is itself
a writer), and after finish, the previous buffer content is a prefix of the
new buffer content. -/
theorem buffer_only_grows :
    (∀ s : ESTreeSerializer,
        s.buffer <+: (ESTreeSequenceSerializer.new s).serializer.buffer)
      ∧ (∀ (q : ESTreeSequenceSerializer) (f : ElemFun), AppendOnly f →
          q.serializer.buffer <+: (q.serialize_element f).serializer.buffer)
      ∧ (∀ q : ESTreeSequenceSerializer,
          q.serializer.buffer <+: q.endSeq.buffer) := by
  refine ⟨fun s => ⟨['['], rfl⟩, ?_, ?_⟩
  · intro q f hf
    obtain ⟨⟨fmt, d, b⟩, st⟩ := q
    cases st
    · obtain ⟨_, t, ht⟩ :=
        hf ⟨fmt, (fmt.before_first_element d).1, b ++ (fmt.before_first_element d).2⟩
      refine ⟨(fmt.before_first_element d).2 ++ t, ?_⟩
      simp [ESTreeSequenceSerializer.serialize_element, ht]
    · obtain ⟨_, t, ht⟩ :=
        hf ⟨fmt, (fmt.before_later_element d).1,
          b ++ ',' :: (fmt.before_later_element d).2⟩
      refine ⟨',' :: ((fmt.before_later_element d).2 ++ t), ?_⟩
      simp [ESTreeSequenceSerializer.serialize_element, ht]
  · intro q
    obtain ⟨⟨fmt, d, b⟩, st⟩ := q
    cases st
    · refine ⟨[']'], ?_⟩
      simp [ESTreeSequenceSerializer.endSeq]
    · refine ⟨(fmt.after_last_element d).2 ++ [']'], ?_⟩
      simp [ESTreeSequenceSerializer.endSeq]

/-- C9 witness: a concrete write on a builder holding `x` extends, and
never rewrites, the buffer. -/
theorem buffer_only_grows_witness :
    AppendOnly (serializeStr ['a'])
      ∧ ((⟨⟨CompactFormatter, 0, ['x']⟩, SequenceState.Empty⟩ :
            ESTreeSequenceSerializer).serializer.buffer
          <+: ((⟨⟨CompactFormatter, 0, ['x']⟩, SequenceState.Empty⟩ :
            ESTreeSequenceSerializer).serialize_element
              (serializeStr ['a'])).serializer.buffer) :=
  ⟨serializeStr_appendOnly ['a'],
    buffer_only_grows.2.1 _ _ (serializeStr_appendOnly ['a'])⟩

/-!
## The slice and array implementations agree (claims C7, C10)
-/

/-- The array loop over the remaining `rem` indices equals folding the
corresponding suffix of the element list. -/
theorem arrayFoldAux_eq_foldl (n : Nat) (elems : Fin n → ElemFun) :
    ∀ (rem : Nat) (h : rem ≤ n) (q : ESTreeSequenceSerializer),
      arrayFoldAux n elems rem h q
        = ((List.ofFn elems).drop (n - rem)).foldl
            ESTreeSequenceSerializer.serialize_element q := by
  intro rem
  induction rem with
  | zero =>
    intro h q
    rw [arrayFoldAux, Nat.sub_zero,
      List.drop_eq_nil_of_le (le_of_eq (List.length_ofFn elems))]
    rfl
  | succ rem ih =>
    intro h q
    have hlt : n - (rem + 1) < (List.ofFn elems).length := by
      rw [List.length_ofFn]; omega
    rw [arrayFoldAux, ih (Nat.le_of_succ_le h),
      List.drop_eq_getElem_cons hlt, List.foldl_cons]
    have hidx : n - (rem + 1) + 1 = n - rem := by omega
    rw [hidx, List.getElem_ofFn]

/-- C10: for every element count, element family and serializer state, the
built-in fixed-length-array implementation and the built-in slice
implementation of the same elements produce identical serializers — the
same appended text and the same formatter state. -/
theorem array_serialize_eq_slice_serialize (n : Nat) (elems : Fin n → ElemFun)
    (s : ESTreeSerializer) :
    arraySerialize n elems s = sliceSerialize (List.ofFn elems) s := by
  rw [arraySerialize, sliceSerialize, arrayFoldAux_eq_foldl, Nat.sub_self,
    List.drop_zero]

/-- A pure emitter element: appends a fixed tag to the buffer (the shape of
a primitive's `ESTree` implementation). -/
def emit (t : List Char) : ElemFun :=
  fun s => { s with buffer := s.buffer ++ t }

/-- Folding emitter writes over a `HasEntries` builder appends, per tag and
in tag order, one comma, one hook output and the tag itself. -/
theorem foldl_hasEntries_tags (tags : List (List Char)) :
    ∀ q : ESTreeSequenceSerializer, q.state = SequenceState.HasEntries →
    ∃ pres : List (List Char), pres.length = tags.length ∧
      (((tags.map emit).foldl ESTreeSequenceSerializer.serialize_element q).state
          = SequenceState.HasEntries
        ∧ ((tags.map emit).foldl ESTreeSequenceSerializer.serialize_element
              q).serializer.buffer
          = q.serializer.buffer
            ++ commaAll (List.zipWith (fun p tg => p ++ tg) pres tags)) := by
  induction tags with
  | nil =>
    intro q hq
    exact ⟨[], rfl, hq, by simp [commaAll]⟩
  | cons tg ts ih =>
    intro q hq
    obtain ⟨⟨fmt, d, b⟩, st⟩ := q
    have hst : st = SequenceState.HasEntries := hq
    subst hst
    have hstep : ESTreeSequenceSerializer.serialize_element
        ⟨⟨fmt, d, b⟩, SequenceState.HasEntries⟩ (emit tg)
        = ⟨⟨fmt, (fmt.before_later_element d).1,
            (b ++ [','] ++ (fmt.before_later_element d).2) ++ tg⟩,
          SequenceState.HasEntries⟩ := by
      simp [ESTreeSequenceSerializer.serialize_element, emit]
    obtain ⟨pres, hlen, hs, hbuf⟩ := ih
      ⟨⟨fmt, (fmt.before_later_element d).1,
          (b ++ [','] ++ (fmt.before_later_element d).2) ++ tg⟩,
        SequenceState.HasEntries⟩ rfl
    refine ⟨(fmt.before_later_element d).2 :: pres, by simp [hlen], ?_, ?_⟩
    · rw [List.map_cons, List.foldl_cons, hstep]
      exact hs
    · rw [List.map_cons, List.foldl_cons, hstep, hbuf]
      simp [commaAll_cons, List.append_assoc]

/-- C7: the built-in slice implementation and the built-in array
implementation write their elements in exactly input order: for emitter
elements with tags `tags`, the output is `[`, then per tag (in order) a
hook prefix and the tag, separated by single commas, a final hook output,
then `]` — under every formatter and serializer state. -/
theorem slice_array_element_order (fmt : FormatterImpl) (d : Nat) (b : List Char)
    (tags : List (List Char)) :
    ∃ (pres : List (List Char)) (post : List Char),
      pres.length = tags.length
        ∧ (sliceSerialize (tags.map emit) ⟨fmt, d, b⟩).buffer
          = b ++ '[' :: (joinSep (List.zipWith (fun p tg => p ++ tg) pres tags)
              ++ post ++ [']'])
        ∧ (arraySerialize tags.length (fun i => emit (tags.get i)) ⟨fmt, d, b⟩).buffer
          = b ++ '[' :: (joinSep (List.zipWith (fun p tg => p ++ tg) pres tags)
              ++ post ++ [']']) := by
  have harr : arraySerialize tags.length (fun i => emit (tags.get i)) ⟨fmt, d, b⟩
      = sliceSerialize (tags.map emit) ⟨fmt, d, b⟩ := by
    rw [arraySerialize, sliceSerialize, arrayFoldAux_eq_foldl, Nat.sub_self,
      List.drop_zero, List.ofFn_get_eq_map]
  rw [harr]
  cases tags with
  | nil =>
    refine ⟨[], [], rfl, ?_, ?_⟩ <;>
      simp [sliceSerialize, ESTreeSequenceSerializer.new,
        ESTreeSequenceSerializer.endSeq, joinSep, commaAll]
  | cons tg ts =>
    have hstep : (ESTreeSequenceSerializer.new ⟨fmt, d, b⟩).serialize_element (emit tg)
        = ⟨⟨fmt, (fmt.before_first_element d).1,
            ((b ++ ['[']) ++ (fmt.before_first_element d).2) ++ tg⟩,
          SequenceState.HasEntries⟩ := by
      simp [ESTreeSequenceSerializer.new,
        ESTreeSequenceSerializer.serialize_element, emit]
    obtain ⟨pres, hlen, hs, hbuf⟩ := foldl_hasEntries_tags ts
      ⟨⟨fmt, (fmt.before_first_element d).1,
          ((b ++ ['[']) ++ (fmt.before_first_element d).2) ++ tg⟩,
        SequenceState.HasEntries⟩ rfl
    rw [sliceSerialize, List.map_cons, List.foldl_cons, hstep]
    set q := (ts.map emit).foldl ESTreeSequenceSerializer.serialize_element
      ⟨⟨fmt, (fmt.before_first_element d).1,
          ((b ++ ['[']) ++ (fmt.before_first_element d).2) ++ tg⟩,
        SequenceState.HasEntries⟩ with hqdef
    refine ⟨(fmt.before_first_element d).2 :: pres,
      (q.serializer.fmt.after_last_element q.serializer.depth).2,
      by simp [hlen], ?_, ?_⟩ <;>
      (rw [endSeq_buffer_hasEntries q hs, hbuf];
        simp [joinSep, commaAll_cons, List.append_assoc])

/-!
## The worked example of `tests::serialize_sequence` (claim C6)
-/

/-- C6: serializing the worked-example struct with the compact strategy
yields exactly the compact string of the sampled test, and with the pretty
strategy (two-space indent unit) exactly its multi-line rendering. -/
theorem foo_worked_example :
    (fooSerialize CompactSerializer.new).buffer
        = "\x7b\"none\":[],\"one\":[\"one\"],\"two\":[\"two one\",\"two two\"]\x7d".data
      ∧ (fooSerialize PrettySerializer.new).buffer
        = "\x7b\n  \"none\": [],\n  \"one\": [\n    \"one\"\n  ],\n  \"two\": [\n    \"two one\",\n    \"two two\"\n  ]\n\x7d".data := by
  exact ⟨rfl, rfl⟩

/-!
## Whitespace equivalence of compact and pretty output (claim C8)

A standard JSON reader tokenizes its input, dropping whitespace that
occurs outside string literals; two texts whose significant characters
(everything except whitespace outside string literals) coincide are read
as the same value — same keys in the same order, same array order, same
primitives.  We model arbitrary serializable source trees, render them
through the machinery above with both strategies, and prove the two
renderings agree after deleting insignificant whitespace.
-/

/-- A serializable source tree: string primitives, sequences, structs. -/
inductive Val where
  | str : List Char → Val
  | seq : List Val → Val
  | obj : List (List Char × Val) → Val

mutual

/-- The `ESTree::serialize` implementation of a source tree: primitives
write themselves, a sequence runs the sequence builder over its elements
in order, a struct runs the struct builder over its fields in order. -/
def Val.serialize : Val → ESTreeSerializer → ESTreeSerializer
  | Val.str cs, s => serializeStr cs s
  | Val.seq vs, s => (serializeElems vs (ESTreeSequenceSerializer.new s)).endSeq
  | Val.obj fs, s => (serializeFields fs (ESTreeStructSerializer.new s)).endStruct

/-- Write each element of a sequence, in order, into the sequence builder. -/
def serializeElems : List Val → ESTreeSequenceSerializer → ESTreeSequenceSerializer
  | [], q => q
  | v :: vs, q => serializeElems vs (q.serialize_element (fun s => Val.serialize v s))

/-- Write each field of a struct, in order, into the struct builder. -/
def serializeFields :
    List (List Char × Val) → ESTreeStructSerializer → ESTreeStructSerializer
  | [], q => q
  | (n, v) :: fs, q =>
    serializeFields fs (q.serialize_field n (fun s => Val.serialize v s))

end

mutual

/-- Closed form of the compact rendering of a tree. -/
def cOut : Val → List Char
  | Val.str cs => '"' :: (cs ++ ['"'])
  | Val.seq vs => '[' :: (joinSep (cOutList vs) ++ [']'])
  | Val.obj fs => '\x7b' :: (joinSep (cOutFields fs) ++ ['\x7d'])

/-- Compact chunks of sequence elements. -/
def cOutList : List Val → List (List Char)
  | [] => []
  | v :: vs => cOut v :: cOutList vs

/-- Compact chunks of struct fields (`"name":value`). -/
def cOutFields : List (List Char × Val) → List (List Char)
  | [] => []
  | (n, v) :: fs => ('"' :: (n ++ '"' :: ':' :: cOut v)) :: cOutFields fs

end

mutual

/-- Closed form of the pretty rendering of a tree at nesting depth `d`. -/
def pOut (d : Nat) : Val → List Char
  | Val.str cs => '"' :: (cs ++ ['"'])
  | Val.seq [] => ['[', ']']
  | Val.seq (v :: vs) =>
    '[' :: (('\n' :: indentChars (d + 1)) ++ pOut (d + 1) v ++ pTail (d + 1) vs
      ++ ('\n' :: indentChars d) ++ [']'])
  | Val.obj [] => ['\x7b', '\x7d']
  | Val.obj ((n, v) :: fs) =>
    '\x7b' :: (('\n' :: indentChars (d + 1))
      ++ ('"' :: (n ++ '"' :: ':' :: ' ' :: pOut (d + 1) v))
      ++ pFTail (d + 1) fs ++ ('\n' :: indentChars d) ++ ['\x7d'])

/-- Pretty rendering of later sequence elements at depth `d`. -/
def pTail (d : Nat) : List Val → List Char
  | [] => []
  | v :: vs => (',' :: ('\n' :: indentChars d) ++ pOut d v) ++ pTail d vs

/-- Pretty rendering of later struct fields at depth `d`. -/
def pFTail (d : Nat) : List (List Char × Val) → List Char
  | [] => []
  | (n, v) :: fs =>
    (',' :: ('\n' :: indentChars d) ++ ('"' :: (n ++ '"' :: ':' :: ' ' :: pOut d v)))
      ++ pFTail d fs

end

theorem new_eq (s : ESTreeSerializer) :
    ESTreeSequenceSerializer.new s
      = ⟨{ s with buffer := s.buffer ++ ['['] }, SequenceState.Empty⟩ := rfl

theorem selem_empty (fmt : FormatterImpl) (d : Nat) (b : List Char) (f : ElemFun) :
    ESTreeSequenceSerializer.serialize_element ⟨⟨fmt, d, b⟩, SequenceState.Empty⟩ f
      = ⟨f ⟨fmt, (fmt.before_first_element d).1,
          b ++ (fmt.before_first_element d).2⟩, SequenceState.HasEntries⟩ := by
  simp [ESTreeSequenceSerializer.serialize_element]

theorem selem_hasEntries (fmt : FormatterImpl) (d : Nat) (b : List Char) (f : ElemFun) :
    ESTreeSequenceSerializer.serialize_element ⟨⟨fmt, d, b⟩, SequenceState.HasEntries⟩ f
      = ⟨f ⟨fmt, (fmt.before_later_element d).1,
          b ++ ',' :: (fmt.before_later_element d).2⟩, SequenceState.HasEntries⟩ := by
  simp [ESTreeSequenceSerializer.serialize_element]

theorem endSeq_empty (fmt : FormatterImpl) (d : Nat) (b : List Char) :
    ESTreeSequenceSerializer.endSeq ⟨⟨fmt, d, b⟩, SequenceState.Empty⟩
      = ⟨fmt, d, b ++ [']']⟩ := by
  simp [ESTreeSequenceSerializer.endSeq]

theorem endSeq_hasEntries (fmt : FormatterImpl) (d : Nat) (b : List Char) :
    ESTreeSequenceSerializer.endSeq ⟨⟨fmt, d, b⟩, SequenceState.HasEntries⟩
      = ⟨fmt, (fmt.after_last_element d).1,
          b ++ ((fmt.after_last_element d).2 ++ [']'])⟩ := by
  simp [ESTreeSequenceSerializer.endSeq]

theorem newStruct_eq (s : ESTreeSerializer) :
    ESTreeStructSerializer.new s
      = ⟨{ s with buffer := s.buffer ++ ['\x7b'] }, SequenceState.Empty⟩ := rfl

theorem sfield_empty (fmt : FormatterImpl) (d : Nat) (b : List Char)
    (n : List Char) (f : ElemFun) :
    ESTreeStructSerializer.serialize_field ⟨⟨fmt, d, b⟩, SequenceState.Empty⟩ n f
      = ⟨f ⟨fmt, (fmt.before_first_field d).1,
          b ++ ((fmt.before_first_field d).2
            ++ '"' :: (n ++ '"' :: ':' :: fmt.after_colon))⟩,
        SequenceState.HasEntries⟩ := by
  simp [ESTreeStructSerializer.serialize_field]

theorem sfield_hasEntries (fmt : FormatterImpl) (d : Nat) (b : List Char)
    (n : List Char) (f : ElemFun) :
    ESTreeStructSerializer.serialize_field ⟨⟨fmt, d, b⟩, SequenceState.HasEntries⟩ n f
      = ⟨f ⟨fmt, (fmt.before_later_field d).1,
          b ++ ',' :: ((fmt.before_later_field d).2
            ++ '"' :: (n ++ '"' :: ':' :: fmt.after_colon))⟩,
        SequenceState.HasEntries⟩ := by
  simp [ESTreeStructSerializer.serialize_field]

theorem endStruct_empty (fmt : FormatterImpl) (d : Nat) (b : List Char) :
    ESTreeStructSerializer.endStruct ⟨⟨fmt, d, b⟩, SequenceState.Empty⟩
      = ⟨fmt, d, b ++ ['\x7d']⟩ := by
  simp [ESTreeStructSerializer.endStruct]

theorem endStruct_hasEntries (fmt : FormatterImpl) (d : Nat) (b : List Char) :
    ESTreeStructSerializer.endStruct ⟨⟨fmt, d, b⟩, SequenceState.HasEntries⟩
      = ⟨fmt, (fmt.after_last_field d).1,
          b ++ ((fmt.after_last_field d).2 ++ ['\x7d'])⟩ := by
  simp [ESTreeStructSerializer.endStruct]

theorem cf_bfe (d : Nat) : CompactFormatter.before_first_element d = (d, []) := rfl

theorem cf_ble (d : Nat) : CompactFormatter.before_later_element d = (d, []) := rfl

theorem cf_ale (d : Nat) : CompactFormatter.after_last_element d = (d, []) := rfl

theorem cf_bff (d : Nat) : CompactFormatter.before_first_field d = (d, []) := rfl

theorem cf_blf (d : Nat) : CompactFormatter.before_later_field d = (d, []) := rfl

theorem cf_alf (d : Nat) : CompactFormatter.after_last_field d = (d, []) := rfl

theorem cf_ac : CompactFormatter.after_colon = [] := rfl

mutual

/-- Under the compact strategy a tree serializes to its closed-form
compact rendering, leaving the depth untouched. -/
theorem compact_run : ∀ (v : Val) (d : Nat) (b : List Char),
    Val.serialize v ⟨CompactFormatter, d, b⟩ = ⟨CompactFormatter, d, b ++ cOut v⟩
  | Val.str cs, d, b => by
    simp [Val.serialize, serializeStr, cOut]
  | Val.seq [], d, b => by
    simp [Val.serialize, serializeElems, new_eq, endSeq_empty, cOut, cOutList,
      joinSep, commaAll]
  | Val.seq (v :: vs), d, b => by
    have hv := compact_run v
    have hvs := compact_run_elems vs
    simp only [Val.serialize, serializeElems, new_eq, selem_empty, cf_bfe,
      List.append_nil]
    rw [hv, hvs, endSeq_hasEntries]
    simp [cf_ale, cOut, cOutList, joinSep, List.append_assoc]
  | Val.obj [], d, b => by
    simp [Val.serialize, serializeFields, newStruct_eq, endStruct_empty, cOut,
      cOutFields, joinSep, commaAll]
  | Val.obj ((n, v) :: fs), d, b => by
    have hv := compact_run v
    have hfs := compact_run_fields fs
    simp only [Val.serialize, serializeFields, newStruct_eq, sfield_empty, cf_bff,
      cf_ac, List.nil_append, List.append_nil]
    rw [hv, hfs, endStruct_hasEntries]
    simp [cf_alf, cOut, cOutFields, joinSep, commaAll_cons, List.append_assoc]

/-- Later sequence elements under the compact strategy. -/
theorem compact_run_elems : ∀ (vs : List Val) (d : Nat) (b : List Char),
    serializeElems vs ⟨⟨CompactFormatter, d, b⟩, SequenceState.HasEntries⟩
      = ⟨⟨CompactFormatter, d, b ++ commaAll (cOutList vs)⟩,
        SequenceState.HasEntries⟩
  | [], d, b => by
    simp [serializeElems, cOutList, commaAll]
  | v :: vs, d, b => by
    have hv := compact_run v
    have hvs := compact_run_elems vs
    simp only [serializeElems, selem_hasEntries, cf_ble, List.append_nil]
    rw [hv, hvs]
    simp [cOutList, commaAll_cons, List.append_assoc]

/-- Later struct fields under the compact strategy. -/
theorem compact_run_fields : ∀ (fs : List (List Char × Val)) (d : Nat) (b : List Char),
    serializeFields fs ⟨⟨CompactFormatter, d, b⟩, SequenceState.HasEntries⟩
      = ⟨⟨CompactFormatter, d, b ++ commaAll (cOutFields fs)⟩,
        SequenceState.HasEntries⟩
  | [], d, b => by
    simp [serializeFields, cOutFields, commaAll]
  | (n, v) :: fs, d, b => by
    have hv := compact_run v
    have hfs := compact_run_fields fs
    simp only [serializeFields, sfield_hasEntries, cf_blf, cf_ac,
      List.nil_append, List.append_nil]
    rw [hv, hfs]
    simp [cOutFields, commaAll_cons, List.append_assoc]

end

theorem pf_bfe (d : Nat) :
    PrettyFormatter.before_first_element d = (d + 1, '\n' :: indentChars (d + 1)) := rfl

theorem pf_ble (d : Nat) :
    PrettyFormatter.before_later_element d = (d, '\n' :: indentChars d) := rfl

theorem pf_ale (d : Nat) :
    PrettyFormatter.after_last_element d = (d - 1, '\n' :: indentChars (d - 1)) := rfl

theorem pf_bff (d : Nat) :
    PrettyFormatter.before_first_field d = (d + 1, '\n' :: indentChars (d + 1)) := rfl

theorem pf_blf (d : Nat) :
    PrettyFormatter.before_later_field d = (d, '\n' :: indentChars d) := rfl

theorem pf_alf (d : Nat) :
    PrettyFormatter.after_last_field d = (d - 1, '\n' :: indentChars (d - 1)) := rfl

theorem pf_ac : PrettyFormatter.after_colon = [' '] := rfl

mutual

/-- Under the pretty strategy a tree at depth `d` serializes to its
closed-form pretty rendering and restores the depth to `d`. -/
theorem pretty_run : ∀ (v : Val) (d : Nat) (b : List Char),
    Val.serialize v ⟨PrettyFormatter, d, b⟩ = ⟨PrettyFormatter, d, b ++ pOut d v⟩
  | Val.str cs, d, b => by
    simp [Val.serialize, serializeStr, pOut]
  | Val.seq [], d, b => by
    simp [Val.serialize, serializeElems, new_eq, endSeq_empty, pOut]
  | Val.seq (v :: vs), d, b => by
    have hv := pretty_run v
    have hvs := pretty_run_elems vs
    simp only [Val.serialize, serializeElems, new_eq, selem_empty, pf_bfe]
    rw [hv, hvs, endSeq_hasEntries]
    simp [pf_ale, pOut, List.append_assoc]
  | Val.obj [], d, b => by
    simp [Val.serialize, serializeFields, newStruct_eq, endStruct_empty, pOut]
  | Val.obj ((n, v) :: fs), d, b => by
    have hv := pretty_run v
    have hfs := pretty_run_fields fs
    simp only [Val.serialize, serializeFields, newStruct_eq, sfield_empty, pf_bff,
      pf_ac]
    rw [hv, hfs, endStruct_hasEntries]
    simp [pf_alf, pOut, List.append_assoc]

/-- Later sequence elements at depth `d` under the pretty strategy. -/
theorem pretty_run_elems : ∀ (vs : List Val) (d : Nat) (b : List Char),
    serializeElems vs ⟨⟨PrettyFormatter, d, b⟩, SequenceState.HasEntries⟩
      = ⟨⟨PrettyFormatter, d, b ++ pTail d vs⟩, SequenceState.HasEntries⟩
  | [], d, b => by
    simp [serializeElems, pTail]
  | v :: vs, d, b => by
    have hv := pretty_run v
    have hvs := pretty_run_elems vs
    simp only [serializeElems, selem_hasEntries, pf_ble]
    rw [hv, hvs]
    simp [pTail, List.append_assoc]

/-- Later struct fields at depth `d` under the pretty strategy. -/
theorem pretty_run_fields : ∀ (fs : List (List Char × Val)) (d : Nat) (b : List Char),
    serializeFields fs ⟨⟨PrettyFormatter, d, b⟩, SequenceState.HasEntries⟩
      = ⟨⟨PrettyFormatter, d, b ++ pFTail d fs⟩, SequenceState.HasEntries⟩
  | [], d, b => by
    simp [serializeFields, pFTail]
  | (n, v) :: fs, d, b => by
    have hv := pretty_run v
    have hfs := pretty_run_fields fs
    simp only [serializeFields, sfield_hasEntries, pf_blf, pf_ac]
    rw [hv, hfs]
    simp [pFTail, List.append_assoc]

end

/-- The in-string flag of a standard JSON lexer after scanning `cs`,
starting from flag `b`: each `"` toggles it (the modelled renderings use no
escape sequences). -/
def flagAfter (b : Bool) : List Char → Bool
  | [] => b
  | c :: cs => flagAfter (if c = '"' then !b else b) cs

/-- Delete insignificant whitespace: the spaces and line breaks occurring
outside string literals — exactly the characters a standard JSON reader
skips between tokens.  `b` is the in-string flag. -/
def strip (b : Bool) : List Char → List Char
  | [] => []
  | c :: cs =>
    if c = '"' then c :: strip (!b) cs
    else if b = false ∧ (c = ' ' ∨ c = '\n') then strip b cs
    else c :: strip b cs

theorem flagAfter_append (xs : List Char) : ∀ (b : Bool) (ys : List Char),
    flagAfter b (xs ++ ys) = flagAfter (flagAfter b xs) ys := by
  induction xs with
  | nil => intro b ys; simp [flagAfter]
  | cons c cs ih => intro b ys; simp [flagAfter, ih]

theorem strip_append (xs : List Char) : ∀ (b : Bool) (ys : List Char),
    strip b (xs ++ ys) = strip b xs ++ strip (flagAfter b xs) ys := by
  induction xs with
  | nil => intro b ys; simp [strip, flagAfter]
  | cons c cs ih =>
    intro b ys
    by_cases h1 : c = '"'
    · subst h1
      simp [strip, flagAfter, ih]
    · by_cases h2 : b = false ∧ (c = ' ' ∨ c = '\n')
      · simp [strip, flagAfter, h1, h2, ih]
      · simp [strip, flagAfter, h1, h2, ih]

theorem flagAfter_noquote (cs : List Char) (h : '"' ∉ cs) : ∀ b : Bool,
    flagAfter b cs = b := by
  induction cs with
  | nil => intro b; rfl
  | cons c cs ih =>
    intro b
    have hc : c ≠ '"' := fun he => h (he ▸ List.mem_cons_self c cs)
    have hcs : '"' ∉ cs := fun hm => h (List.mem_cons_of_mem c hm)
    simp [flagAfter, hc, ih hcs]

theorem strip_true_noquote (cs : List Char) (h : '"' ∉ cs) :
    strip true cs = cs := by
  induction cs with
  | nil => rfl
  | cons c cs ih =>
    have hc : c ≠ '"' := fun he => h (he ▸ List.mem_cons_self c cs)
    have hcs : '"' ∉ cs := fun hm => h (List.mem_cons_of_mem c hm)
    simp [strip, hc, ih hcs]

theorem strip_false_keep (c : Char) (h1 : c ≠ '"') (h2 : c ≠ ' ')
    (h3 : c ≠ '\n') (cs : List Char) :
    strip false (c :: cs) = c :: strip false cs := by
  simp [strip, h1, h2, h3]

theorem flagAfter_cons_ne (c : Char) (h : c ≠ '"') (b : Bool) (cs : List Char) :
    flagAfter b (c :: cs) = flagAfter b cs := by
  simp [flagAfter, h]

theorem strip_false_drop (c : Char) (h : c = ' ' ∨ c = '\n') (cs : List Char) :
    strip false (c :: cs) = strip false cs := by
  rcases h with h | h <;> subst h <;> simp [strip]

/-- Scanning a complete quoted literal with quote-free content keeps it
verbatim and returns the flag to out-of-string. -/
theorem strip_false_lit (cs : List Char) (h : '"' ∉ cs) (rest : List Char) :
    strip false ('"' :: (cs ++ '"' :: rest)) = '"' :: (cs ++ '"' :: strip false rest) := by
  show strip false ('"' :: (cs ++ '"' :: rest)) = _
  rw [show strip false ('"' :: (cs ++ '"' :: rest))
      = '"' :: strip true (cs ++ '"' :: rest) by simp [strip]]
  rw [strip_append, strip_true_noquote cs h, flagAfter_noquote cs h]
  simp [strip]

theorem flagAfter_false_lit (cs : List Char) (h : '"' ∉ cs) (rest : List Char) :
    flagAfter false ('"' :: (cs ++ '"' :: rest)) = flagAfter false rest := by
  rw [show flagAfter false ('"' :: (cs ++ '"' :: rest))
      = flagAfter true (cs ++ '"' :: rest) by simp [flagAfter]]
  rw [flagAfter_append, flagAfter_noquote cs h]
  simp [flagAfter]

theorem strip_false_spaces (m : Nat) : ∀ rest : List Char,
    strip false (List.replicate m ' ' ++ rest) = strip false rest := by
  induction m with
  | zero => intro rest; simp
  | succ m ih => intro rest; simp [List.replicate_succ, strip, ih]

theorem flagAfter_false_spaces (m : Nat) : ∀ rest : List Char,
    flagAfter false (List.replicate m ' ' ++ rest) = flagAfter false rest := by
  induction m with
  | zero => intro rest; simp
  | succ m ih => intro rest; simp [List.replicate_succ, flagAfter, ih]

/-- A pretty line break plus indentation is deleted entirely. -/
theorem strip_false_nlind (k : Nat) (rest : List Char) :
    strip false (('\n' :: indentChars k) ++ rest) = strip false rest := by
  rw [List.cons_append, strip_false_drop '\n' (Or.inr rfl), indentChars,
    strip_false_spaces]

theorem flagAfter_false_nlind (k : Nat) (rest : List Char) :
    flagAfter false (('\n' :: indentChars k) ++ rest) = flagAfter false rest := by
  rw [List.cons_append, flagAfter_cons_ne '\n' (by decide), indentChars,
    flagAfter_false_spaces]

mutual

/-- Well-formed source tree: no string content or field name contains a
quote (primitive content encoding, including escaping, is an external
concern; the modelled primitive writes content verbatim). -/
def Val.wfB : Val → Bool
  | Val.str cs => decide ('"' ∉ cs)
  | Val.seq vs => wfListB vs
  | Val.obj fs => wfFieldsB fs

/-- `Val.wfB` over the elements of a sequence. -/
def wfListB : List Val → Bool
  | [] => true
  | v :: vs => Val.wfB v && wfListB vs

/-- `Val.wfB` over the fields of a struct. -/
def wfFieldsB : List (List Char × Val) → Bool
  | [] => true
  | (n, v) :: fs => decide ('"' ∉ n) && (Val.wfB v && wfFieldsB fs)

end

theorem strip_false_nlind2 (k : Nat) (rest : List Char) :
    strip false ('\n' :: (indentChars k ++ rest)) = strip false rest :=
  strip_false_nlind k rest

theorem flagAfter_false_nlind2 (k : Nat) (rest : List Char) :
    flagAfter false ('\n' :: (indentChars k ++ rest)) = flagAfter false rest :=
  flagAfter_false_nlind k rest


mutual

/-- Stripping insignificant whitespace from the pretty rendering of a
well-formed tree yields exactly its compact rendering, and the compact
rendering is already free of insignificant whitespace; both renderings
leave the lexer's in-string flag outside any literal. -/
theorem strip_run : ∀ (v : Val), Val.wfB v = true → ∀ d : Nat,
    (strip false (pOut d v) = cOut v ∧ flagAfter false (pOut d v) = false)
      ∧ (strip false (cOut v) = cOut v ∧ flagAfter false (cOut v) = false)
  | Val.str cs, hwf, d => by
    simp only [Val.wfB, decide_eq_true_eq] at hwf
    refine ⟨⟨?_, ?_⟩, ?_, ?_⟩ <;> simp only [pOut, cOut]
    · rw [strip_false_lit cs hwf]; rfl
    · rw [flagAfter_false_lit cs hwf]; rfl
    · rw [strip_false_lit cs hwf]; rfl
    · rw [flagAfter_false_lit cs hwf]; rfl
  | Val.seq [], hwf, d => by
    refine ⟨⟨?_, ?_⟩, ?_, ?_⟩ <;>
      simp [pOut, cOut, cOutList, joinSep, commaAll, strip, flagAfter]
  | Val.seq (v :: vs), hwf, d => by
    simp only [Val.wfB, wfListB, Bool.and_eq_true] at hwf
    obtain ⟨hwv, hwvs⟩ := hwf
    have ihv := strip_run v hwv (d + 1)
    have ihvs := strip_run_elems vs hwvs (d + 1)
    simp only [pOut, cOut, cOutList, joinSep, List.cons_append, List.append_assoc]
    refine ⟨⟨?_, ?_⟩, ?_, ?_⟩
    · rw [strip_false_keep '[' (by decide) (by decide) (by decide),
        strip_false_nlind2,
        strip_append (pOut (d + 1) v), ihv.1.1, ihv.1.2,
        strip_append (pTail (d + 1) vs), ihvs.1.1, ihvs.1.2,
        strip_false_nlind2,
        show strip false [']'] = [']'] by decide]
    · rw [flagAfter_cons_ne '[' (by decide), flagAfter_false_nlind2,
        flagAfter_append (pOut (d + 1) v), ihv.1.2,
        flagAfter_append (pTail (d + 1) vs), ihvs.1.2,
        flagAfter_false_nlind2]
      decide
    · rw [strip_false_keep '[' (by decide) (by decide) (by decide),
        strip_append (cOut v), ihv.2.1, ihv.2.2,
        strip_append (commaAll (cOutList vs)), ihvs.2.1, ihvs.2.2,
        show strip false [']'] = [']'] by decide]
    · rw [flagAfter_cons_ne '[' (by decide),
        flagAfter_append (cOut v), ihv.2.2,
        flagAfter_append (commaAll (cOutList vs)), ihvs.2.2]
      decide
  | Val.obj [], hwf, d => by
    refine ⟨⟨?_, ?_⟩, ?_, ?_⟩ <;>
      simp [pOut, cOut, cOutFields, joinSep, commaAll, strip, flagAfter]
  | Val.obj ((n, v) :: fs), hwf, d => by
    simp only [Val.wfB, wfFieldsB, Bool.and_eq_true, decide_eq_true_eq] at hwf
    obtain ⟨hqn, hwv, hwfs⟩ := hwf
    have ihv := strip_run v hwv (d + 1)
    have ihfs := strip_run_fields fs hwfs (d + 1)
    simp only [pOut, cOut, cOutFields, joinSep, List.cons_append, List.append_assoc]
    refine ⟨⟨?_, ?_⟩, ?_, ?_⟩
    · rw [strip_false_keep '\x7b' (by decide) (by decide) (by decide),
        strip_false_nlind2,
        strip_false_lit n hqn,
        strip_false_keep ':' (by decide) (by decide) (by decide),
        strip_false_drop ' ' (Or.inl rfl),
        strip_append (pOut (d + 1) v), ihv.1.1, ihv.1.2,
        strip_append (pFTail (d + 1) fs), ihfs.1.1, ihfs.1.2,
        strip_false_nlind2,
        show strip false ['\x7d'] = ['\x7d'] by decide]
    · rw [flagAfter_cons_ne '\x7b' (by decide), flagAfter_false_nlind2,
        flagAfter_false_lit n hqn,
        flagAfter_cons_ne ':' (by decide), flagAfter_cons_ne ' ' (by decide),
        flagAfter_append (pOut (d + 1) v), ihv.1.2,
        flagAfter_append (pFTail (d + 1) fs), ihfs.1.2,
        flagAfter_false_nlind2]
      decide
    · rw [strip_false_keep '\x7b' (by decide) (by decide) (by decide),
        strip_false_lit n hqn,
        strip_false_keep ':' (by decide) (by decide) (by decide),
        strip_append (cOut v), ihv.2.1, ihv.2.2,
        strip_append (commaAll (cOutFields fs)), ihfs.2.1, ihfs.2.2,
        show strip false ['\x7d'] = ['\x7d'] by decide]
    · rw [flagAfter_cons_ne '\x7b' (by decide), flagAfter_false_lit n hqn,
        flagAfter_cons_ne ':' (by decide),
        flagAfter_append (cOut v), ihv.2.2,
        flagAfter_append (commaAll (cOutFields fs)), ihfs.2.2]
      decide

/-- Later-element tails strip to the compact comma-led chunks. -/
theorem strip_run_elems : ∀ (vs : List Val), wfListB vs = true → ∀ d : Nat,
    (strip false (pTail d vs) = commaAll (cOutList vs)
      ∧ flagAfter false (pTail d vs) = false)
    ∧ (strip false (commaAll (cOutList vs)) = commaAll (cOutList vs)
      ∧ flagAfter false (commaAll (cOutList vs)) = false)
  | [], hwf, d => by
    refine ⟨⟨?_, ?_⟩, ?_, ?_⟩ <;> simp [pTail, cOutList, commaAll, strip, flagAfter]
  | v :: vs, hwf, d => by
    simp only [wfListB, Bool.and_eq_true] at hwf
    obtain ⟨hwv, hwvs⟩ := hwf
    have ihv := strip_run v hwv d
    have ihvs := strip_run_elems vs hwvs d
    simp only [pTail, cOutList, commaAll_cons, List.cons_append, List.append_assoc]
    refine ⟨⟨?_, ?_⟩, ?_, ?_⟩
    · rw [strip_false_keep ',' (by decide) (by decide) (by decide),
        strip_false_nlind2,
        strip_append (pOut d v), ihv.1.1, ihv.1.2, ihvs.1.1]
    · rw [flagAfter_cons_ne ',' (by decide), flagAfter_false_nlind2,
        flagAfter_append (pOut d v), ihv.1.2, ihvs.1.2]
    · rw [strip_false_keep ',' (by decide) (by decide) (by decide),
        strip_append (cOut v), ihv.2.1, ihv.2.2, ihvs.2.1]
    · rw [flagAfter_cons_ne ',' (by decide),
        flagAfter_append (cOut v), ihv.2.2, ihvs.2.2]

/-- Later-field tails strip to the compact comma-led chunks. -/
theorem strip_run_fields :
    ∀ (fs : List (List Char × Val)), wfFieldsB fs = true → ∀ d : Nat,
    (strip false (pFTail d fs) = commaAll (cOutFields fs)
      ∧ flagAfter false (pFTail d fs) = false)
    ∧ (strip false (commaAll (cOutFields fs)) = commaAll (cOutFields fs)
      ∧ flagAfter false (commaAll (cOutFields fs)) = false)
  | [], hwf, d => by
    refine ⟨⟨?_, ?_⟩, ?_, ?_⟩ <;> simp [pFTail, cOutFields, commaAll, strip, flagAfter]
  | (n, v) :: fs, hwf, d => by
    simp only [wfFieldsB, Bool.and_eq_true, decide_eq_true_eq] at hwf
    obtain ⟨hqn, hwv, hwfs⟩ := hwf
    have ihv := strip_run v hwv d
    have ihfs := strip_run_fields fs hwfs d
    simp only [pFTail, cOutFields, commaAll_cons, List.cons_append, List.append_assoc]
    refine ⟨⟨?_, ?_⟩, ?_, ?_⟩
    · rw [strip_false_keep ',' (by decide) (by decide) (by decide),
        strip_false_nlind2,
        strip_false_lit n hqn,
        strip_false_keep ':' (by decide) (by decide) (by decide),
        strip_false_drop ' ' (Or.inl rfl),
        strip_append (pOut d v), ihv.1.1, ihv.1.2, ihfs.1.1]
    · rw [flagAfter_cons_ne ',' (by decide), flagAfter_false_nlind2,
        flagAfter_false_lit n hqn,
        flagAfter_cons_ne ':' (by decide), flagAfter_cons_ne ' ' (by decide),
        flagAfter_append (pOut d v), ihv.1.2, ihfs.1.2]
    · rw [strip_false_keep ',' (by decide) (by decide) (by decide),
        strip_false_lit n hqn,
        strip_false_keep ':' (by decide) (by decide) (by decide),
        strip_append (cOut v), ihv.2.1, ihv.2.2, ihfs.2.1]
    · rw [flagAfter_cons_ne ',' (by decide), flagAfter_false_lit n hqn,
        flagAfter_cons_ne ':' (by decide),
        flagAfter_append (cOut v), ihv.2.2, ihfs.2.2]

end

/-- C8: for every well-formed serializable source tree, the compact-mode
output and the pretty-mode output carry the same significant characters: a
standard JSON reader, which skips whitespace outside string literals,
reads identical token streams — hence structurally identical values (same
keys in the same order, same array order, same primitives) — from both,
and the compact output contains no insignificant whitespace at all, so the
two renderings differ only in whitespace. -/
theorem compact_pretty_whitespace (v : Val) (h : Val.wfB v = true) :
    strip false ((Val.serialize v PrettySerializer.new).buffer)
        = strip false ((Val.serialize v CompactSerializer.new).buffer)
      ∧ strip false ((Val.serialize v CompactSerializer.new).buffer)
        = (Val.serialize v CompactSerializer.new).buffer := by
  have hc : Val.serialize v CompactSerializer.new
      = ⟨CompactFormatter, 0, [] ++ cOut v⟩ := compact_run v 0 []
  have hp : Val.serialize v PrettySerializer.new
      = ⟨PrettyFormatter, 0, [] ++ pOut 0 v⟩ := pretty_run v 0 []
  rw [hc, hp]
  simp only [List.nil_append]
  have hs := strip_run v h 0
  exact ⟨by rw [hs.1.1, hs.2.1], hs.2.1⟩

/-- A small concrete tree: a struct holding a non-empty sequence of strings
(one containing a space) and an empty sequence. -/
def wsVal : Val :=
  Val.obj [(['o', 'n', 'e'], Val.seq [Val.str ['a', ' ', 'b'], Val.str ['c']]),
    (['t'], Val.seq [])]

/-- C8 witness: the concrete tree `wsVal` is well-formed and its two
renderings agree after deleting insignificant whitespace. -/
theorem compact_pretty_whitespace_witness :
    Val.wfB wsVal = true
      ∧ (strip false ((Val.serialize wsVal PrettySerializer.new).buffer)
            = strip false ((Val.serialize wsVal CompactSerializer.new).buffer)
          ∧ strip false ((Val.serialize wsVal CompactSerializer.new).buffer)
            = (Val.serialize wsVal CompactSerializer.new).buffer) :=
  ⟨by decide, compact_pretty_whitespace wsVal (by decide)⟩
